import Mathlib

/-!
# Verification of the jira-jet read-model, pagination and resolver layer

Shallow embedding of the Go client (package `jira` and the `cmd` package):
JSON description payloads, the description normalizer (`parseDescription`,
`extractTextFromADF`), the paginated search engine
(`SearchIssuesWithPagination`, `GetEpicChildren`,
`getEpicChildrenViaSearch`), the transition resolver (`shift` command), the
link builder (`LinkIssues` / `link` command), request construction
(`NewClient`, `makeRequest`) and `maskToken`.

Go strings are modelled as Lean `String` (byte-level slicing in the source
is character-level here; all values involved are ASCII). Go loops that
depend on provider responses are modelled with explicit fuel: a result of
`none` means the loop has not yet finished within `fuel` iterations, so
"the loop terminates" is "for some fuel the result is `some`".
-/

namespace JiraJet

/-- A decoded JSON value, as produced by Go `json.Unmarshal` into
`interface\x7b\x7d`: objects become maps (modelled as association lists with
distinct keys), arrays become lists. Numeric payloads are irrelevant to the
normalizer, so they carry no data. -/
inductive JSON where
  | str (s : String)
  | num
  | bool (b : Bool)
  | null
  | arr (elems : List JSON)
  | obj (fields : List (String × JSON))
deriving Repr

/-- Lookup of a key in a decoded JSON object (Go map indexing `node["k"]`). -/
def lookupField : List (String × JSON) → String → Option JSON
  | [], _ => none
  | (k, v) :: rest, key => if k = key then some v else lookupField rest key

theorem sizeOf_lookupField {fs : List (String × JSON)} {key : String}
    {v : JSON} (h : lookupField fs key = some v) : sizeOf v < sizeOf fs := by
  induction fs with
  | nil => simp [lookupField] at h
  | cons p rest ih =>
    obtain ⟨k, w⟩ := p
    simp only [lookupField] at h
    split at h
    · cases h
      simp
      omega
    · have := ih h
      simp
      omega

mutual

/-- Embedding of `extractTextFromADF` (client.go): emit this node's `text`
field when it is a string, then each child of the `content` array in order,
every non-empty child text followed by a single space. -/
def extractTextFromADF (fields : List (String × JSON)) : String :=
  (match lookupField fields "text" with
   | some (JSON.str s) => s
   | _ => "") ++
  (match h : lookupField fields "content" with
   | some (JSON.arr elems) => extractChildren elems
   | _ => "")
termination_by sizeOf fields
decreasing_by
  simp_wf
  have h1 := sizeOf_lookupField h
  simp at h1
  omega

/-- The `for _, child := range content` loop body of `extractTextFromADF`:
children that are not JSON objects are skipped, an empty child text writes
nothing, a non-empty one is written followed by `" "`. -/
def extractChildren : List JSON → String
  | [] => ""
  | child :: rest =>
    (match child with
     | JSON.obj f =>
        let ct := extractTextFromADF f
        if ct = "" then "" else ct ++ " "
     | _ => "") ++ extractChildren rest
termination_by l => sizeOf l
decreasing_by
  all_goals simp_wf <;> omega

end

/-- The raw bytes of a ticket `description` field, at the granularity the
code observes: absent/empty bytes, bytes that are not valid JSON, or a
decoded JSON value. -/
inductive RawMessage where
  | empty
  | invalid
  | val (j : JSON)
deriving Repr

/-- Embedding of `parseDescription` (client.go): empty input gives `""`;
a value that `json.Unmarshal` accepts into a Go `string` is returned as is
(a JSON string yields its contents, JSON `null` leaves the zero value
`""`); a JSON object is run through `extractTextFromADF`; anything else
(invalid bytes, arrays, numbers, booleans) fails both decodes and gives
`""`. -/
def parseDescription : RawMessage → String
  | .empty => ""
  | .invalid => ""
  | .val (.str s) => s
  | .val (.obj fields) => extractTextFromADF fields
  | .val _ => ""

/-- The slice of an `Issue` the pagination claims observe: the key, the raw
`description` bytes and the derived `DescriptionText` (which is tagged
`json:"-"` in the source, so decoding always leaves it `""`). -/
structure Issue where
  key : String
  description : RawMessage
  descriptionText : String
deriving Repr

/-- The decoded body of a search / epic-children page response. -/
structure SearchResponse where
  issues : List Issue
  startAt : Nat
  total : Nat
  maxResults : Nat
deriving Repr

/-- A provider: the decoded 200-response the server sends for a page
request at a given `startAt` and `maxResults`. Transport and non-200
error paths abort the whole operation in the source and are outside the
happy path these claims describe. -/
def Provider := Nat → Nat → SearchResponse

/-- The per-issue step of `SearchIssuesWithPagination`:
`issue.Fields.DescriptionText = parseDescription(issue.Fields.Description)`. -/
def normalizeIssue (i : Issue) : Issue :=
  { i with descriptionText := parseDescription i.description }

/-- Embedding of `SearchIssuesWithPagination` (client.go): decode the page,
then if the reported total is 0 while the page is non-empty substitute the
page length as the total, then parse every description. -/
def searchIssuesWithPagination (provider : Provider)
    (startAt maxResults : Nat) : SearchResponse :=
  let raw := provider startAt maxResults
  let total := if raw.total = 0 ∧ raw.issues.length > 0
               then raw.issues.length else raw.total
  { raw with total := total, issues := raw.issues.map normalizeIssue }

/-- The `for` loop of `GetEpicChildren` (client.go), with explicit fuel:
fetch the agile-API page at `startAt` with `maxResults = 50`, append its
issues (no total fix-up, no description parsing), stop when
`startAt + len(issues) >= total`, else advance `startAt` by 50. `none`
means the loop is still running after `fuel` iterations. -/
def getEpicChildrenLoop (provider : Provider) :
    Nat → Nat → List Issue → Option (List Issue)
  | 0, _, _ => none
  | fuel + 1, startAt, acc =>
    let resp := provider startAt 50
    let acc' := acc ++ resp.issues
    if startAt + resp.issues.length ≥ resp.total then some acc'
    else getEpicChildrenLoop provider fuel (startAt + 50) acc'

/-- Embedding of `GetEpicChildren` (client.go): run the loop from
`startAt = 0` with an empty accumulator. -/
def getEpicChildren (provider : Provider) (fuel : Nat) : Option (List Issue) :=
  getEpicChildrenLoop provider fuel 0 []

/-- The `for` loop of `getEpicChildrenViaSearch` (client.go): each round
calls `SearchIssuesWithPagination` with `maxResults = 100`, appends the
(normalized) issues, stops when `startAt + len(issues) >= total` using the
fixed-up total, else advances `startAt` by 100. -/
def getEpicChildrenViaSearchLoop (provider : Provider) :
    Nat → Nat → List Issue → Option (List Issue)
  | 0, _, _ => none
  | fuel + 1, startAt, acc =>
    let resp := searchIssuesWithPagination provider startAt 100
    let acc' := acc ++ resp.issues
    if startAt + resp.issues.length ≥ resp.total then some acc'
    else getEpicChildrenViaSearchLoop provider fuel (startAt + 100) acc'

/-- Embedding of `getEpicChildrenViaSearch` (client.go). The JQL filter
selects the epic's children server-side; the provider argument stands for
the server evaluating that filter. -/
def getEpicChildrenViaSearch (provider : Provider) (fuel : Nat) :
    Option (List Issue) :=
  getEpicChildrenViaSearchLoop provider fuel 0 []

/-- A well-behaved server holding the fixed record list `L`: a page request
at `s` of size `m` returns the records `L[s, s+m)` and the authoritative
total `L.length`. -/
def honestProvider (L : List Issue) : Provider :=
  fun s m => { issues := (L.drop s).take m, startAt := s,
               total := L.length, maxResults := m }

/-- A buggy server holding `L` whose total-count field is always 0. -/
def zeroTotalProvider (L : List Issue) : Provider :=
  fun s m => { issues := (L.drop s).take m, startAt := s,
               total := 0, maxResults := m }

/-- A misbehaving server that always returns an empty page while reporting
a total one larger than the requested offset. -/
def inflatingProvider : Provider :=
  fun s m => { issues := [], startAt := s, total := s + 1, maxResults := m }

/-- A nameless record with a plain-string description, used as concrete
server content. -/
def blankIssue : Issue :=
  { key := "K-1", description := .val (.str "body"), descriptionText := "" }

/-! ## String helpers mirroring the Go standard library (ASCII range) -/

/-- Go strings.ToLower, restricted to the ASCII letters the claims use. -/
def lowerStr (s : String) : String := ⟨s.toList.map Char.toLower⟩

/-- Go strings.Contains: some tail of `hay` starts with `pat`. -/
def strContains (hay pat : String) : Bool :=
  hay.toList.tails.any (fun t => pat.toList.isPrefixOf t)

/-- Go strings.HasPrefix. -/
def strStarts (s p : String) : Bool := p.toList.isPrefixOf s.toList

/-! ## Transition resolution (`shift` command, cmd package) -/

/-- One entry of the provider's transitions response: `ID`, `Name` and the
target status `To.Name` the matcher compares against. -/
structure Transition where
  id : String
  name : String
  toName : String
deriving Repr, DecidableEq

/-- The loop condition of the `shift` command's matcher: the lowered
candidate target-status equals the lowered target, or contains it as a
substring. -/
def transitionMatches (target : String) (t : Transition) : Bool :=
  lowerStr t.toName == lowerStr target
    || strContains (lowerStr t.toName) (lowerStr target)

/-- The matching loop of the `shift` command: first transition in the
provider's returned order whose `To.Name` matches. -/
def findTransition (ts : List Transition) (target : String) :
    Option Transition :=
  ts.find? (transitionMatches target)

/-- Resolution outcome of the `shift` command: the matched transition, or
on no match the full list of legal target-status names (which the command
prints for the user before returning its `invalid transition` error). -/
def shiftResolve (ts : List Transition) (target : String) :
    Except (List String) Transition :=
  match findTransition ts target with
  | some t => .ok t
  | none => .error (ts.map (fun t => t.toName))

/-- The three legal labels of the specification's worked example. -/
def demoTransitions : List Transition :=
  [⟨"11", "", "To Do"⟩, ⟨"21", "", "In Progress"⟩, ⟨"31", "", "Done"⟩]

/-! ## Link building (`link` command and `LinkIssues`) -/

/-- The fixed relationship-word table of the `link` command. -/
def linkTypeMap : String → Option String
  | "blocks" => some "Blocks"
  | "is-blocked-by" => some "Blocks"
  | "relates-to" => some "Relates"
  | "relates" => some "Relates"
  | "duplicates" => some "Duplicate"
  | "is-duplicated-by" => some "Duplicate"
  | "clones" => some "Cloners"
  | "is-cloned-by" => some "Cloners"
  | "causes" => some "Causes"
  | "is-caused-by" => some "Causes"
  | _ => none

/-- The body `LinkIssues` posts to `/rest/api/2/issueLink` (the optional
comment is never set by the command). -/
structure IssueLinkRequest where
  typeName : String
  inwardKey : String
  outwardKey : String
deriving Repr, DecidableEq

/-- Embedding of `LinkIssues` (client.go): when the relationship is
inward the two issue operands are swapped before the request is built. -/
def linkIssuesRequest (inwardIssue outwardIssue linkType : String)
    (isInward : Bool) : IssueLinkRequest :=
  let p := if isInward then (outwardIssue, inwardIssue)
           else (inwardIssue, outwardIssue)
  { typeName := linkType, inwardKey := p.1, outwardKey := p.2 }

/-- Embedding of the `link` command: lower the relationship word, look it
up in the table (`none` = unknown relationship error), infer direction
from the `is-` convention, and build the request through `LinkIssues`. -/
def linkCmdRequest (a rel b : String) : Option IssueLinkRequest :=
  let relationship := lowerStr rel
  match linkTypeMap relationship with
  | none => none
  | some linkTypeName =>
    some (linkIssuesRequest a b linkTypeName (strStarts relationship "is-"))

/-! ## Client construction and request building (transport) -/

/-- The credential-bearing fields of `jira.Client` (the TLS policy and the
30s timeout of the embedded HTTP client are transport configuration with
no bearing on these claims). -/
structure Client where
  BaseURL : String
  Email : String
  Username : String
  Token : String
deriving Repr

/-- Go strings.TrimRight with cutset slash: remove every trailing slash. -/
def trimTrailingSlashes (s : String) : String :=
  ⟨(s.toList.reverse.dropWhile (fun c => c == '/')).reverse⟩

/-- Embedding of `NewClient` (client.go). -/
def NewClient (baseURL email username token : String) : Client :=
  { BaseURL := trimTrailingSlashes baseURL, Email := email,
    Username := username, Token := token }

/-- The request `makeRequest` hands to the HTTP client: method, the
concatenated URL, and the basic-auth pair. -/
structure HTTPRequest where
  method : String
  url : String
  authUser : String
  authPass : String
deriving Repr, DecidableEq

/-- The URL concatenation step of `makeRequest`. -/
def requestURL (c : Client) (endpoint : String) : String :=
  c.BaseURL ++ endpoint

/-- The request-construction phase of `makeRequest` (client.go), up to and
including credential selection: email+token if both non-empty, else
username+token if both non-empty, else the missing-credentials error. -/
def buildRequest (c : Client) (method endpoint : String) :
    Except String HTTPRequest :=
  if c.Email ≠ "" ∧ c.Token ≠ "" then
    .ok { method := method, url := requestURL c endpoint,
          authUser := c.Email, authPass := c.Token }
  else if c.Username ≠ "" ∧ c.Token ≠ "" then
    .ok { method := method, url := requestURL c endpoint,
          authUser := c.Username, authPass := c.Token }
  else
    .error "authentication credentials not provided"

/-- Embedding of `makeRequest` (client.go): build the request, and only
when construction succeeded hand it to the network (`c.HTTPClient.Do`),
modelled as an abstract function `net`. -/
def makeRequest {ρ : Type} (c : Client) (method endpoint : String)
    (net : HTTPRequest → ρ) : Except String ρ :=
  match buildRequest c method endpoint with
  | .error e => .error e
  | .ok req => .ok (net req)

/-! ## Token masking (`init` command) -/

/-- Embedding of `maskToken` (cmd package): tokens of length at most 8 are
fully starred; longer tokens keep their first 4 and last 4 characters with
the middle starred. -/
def maskToken (token : String) : String :=
  if token.length ≤ 8 then ⟨List.replicate token.length '*'⟩
  else ⟨token.toList.take 4
        ++ List.replicate (token.length - 8) '*'
        ++ token.toList.drop (token.length - 4)⟩

/-! ## Observation functions for the normalizer claims -/

mutual

/-- The `text` values `extractTextFromADF` visits, in visitation
(depth-first, node before its `content` children, children in list)
order. -/
def adfTexts (fields : List (String × JSON)) : List String :=
  (match lookupField fields "text" with
   | some (JSON.str s) => [s]
   | _ => []) ++
  (match h : lookupField fields "content" with
   | some (JSON.arr elems) => adfTextsChildren elems
   | _ => [])
termination_by sizeOf fields
decreasing_by
  simp_wf
  have h1 := sizeOf_lookupField h
  simp at h1
  omega

/-- The `text` values of a `content` array, in order. -/
def adfTextsChildren : List JSON → List String
  | [] => []
  | child :: rest =>
    (match child with
     | JSON.obj f => adfTexts f
     | _ => []) ++ adfTextsChildren rest
termination_by l => sizeOf l
decreasing_by
  all_goals simp_wf <;> omega

end

/-- Ordered containment: the strings `ts` all occur inside `out`,
disjointly and in the given order (`out` is `g0 ++ t1 ++ g1 ++ ... ++ tn
++ gn` for some gap strings `g i`). -/
inductive ContainsInOrder : String → List String → Prop where
  | nil (s : String) : ContainsInOrder s []
  | cons (pre t rest : String) (ts : List String) :
      ContainsInOrder rest ts → ContainsInOrder (pre ++ t ++ rest) (t :: ts)

/-- Description inputs that are empty, absent, invalid JSON, or valid
JSON of neither plain-string nor object (document-tree) shape. -/
def DescMalformed : RawMessage → Prop
  | .val (.str _) => False
  | .val (.obj _) => False
  | _ => True

/-! ## Supporting lemmas -/

theorem head?_dropWhileSlash (l : List Char) (x : Char)
    (h : (l.dropWhile (fun c => c == '/')).head? = some x) : x ≠ '/' := by
  induction l with
  | nil => simp [List.dropWhile] at h
  | cons c cs ih =>
    by_cases hc : (c == '/') = true
    · rw [List.dropWhile_cons, if_pos hc] at h
      exact ih h
    · rw [List.dropWhile_cons, if_neg hc] at h
      simp only [List.head?_cons, Option.some.injEq] at h
      subst h
      simpa using hc

/-! ## Claim theorems -/

/-- C6: a raw description value that JSON-decodes as a plain string is
returned by the Description Normalizer unchanged: normalizing
already-flat text is the identity. -/
theorem C6_plain_string_identity (s : String) :
    parseDescription (RawMessage.val (JSON.str s)) = s := rfl

/-- C5: the link request the `link` command builds for
`is-blocked-by A B` is identical to the one it builds for `blocks B A`,
and both carry the provider link-type name `Blocks`: the inverse `is-`
spelling submits the operands swapped. -/
theorem C5_inverse_word_swaps_operands (A B : String) :
    linkCmdRequest A "is-blocked-by" B = linkCmdRequest B "blocks" A ∧
    (linkCmdRequest A "is-blocked-by" B).map IssueLinkRequest.typeName
      = some "Blocks" := by
  exact ⟨rfl, rfl⟩

/-- C8: request construction selects the basic-auth pair email+token when
both are non-empty, otherwise username+token when both are non-empty, and
with no usable pair `makeRequest` returns the missing-credentials error
whatever the network would answer — i.e. before any network request. -/
theorem C8_auth_selection (c : Client) (method endpoint : String) :
    (c.Email ≠ "" ∧ c.Token ≠ "" →
      buildRequest c method endpoint =
        .ok { method := method, url := requestURL c endpoint,
              authUser := c.Email, authPass := c.Token }) ∧
    (¬(c.Email ≠ "" ∧ c.Token ≠ "") → c.Username ≠ "" ∧ c.Token ≠ "" →
      buildRequest c method endpoint =
        .ok { method := method, url := requestURL c endpoint,
              authUser := c.Username, authPass := c.Token }) ∧
    (¬(c.Email ≠ "" ∧ c.Token ≠ "") → ¬(c.Username ≠ "" ∧ c.Token ≠ "") →
      ∀ (ρ : Type) (net : HTTPRequest → ρ),
        makeRequest c method endpoint net =
          .error "authentication credentials not provided") := by
  refine ⟨fun h => ?_, fun h1 h2 => ?_, fun h1 h2 ρ net => ?_⟩
  · rw [buildRequest, if_pos h]
  · rw [buildRequest, if_neg h1, if_pos h2]
  · rw [makeRequest, buildRequest, if_neg h1, if_neg h2]

/-- C8 witness: a client with a URL but no credential pair at all fails
with the missing-credentials error, independent of the network. -/
theorem C8_auth_selection_witness :
    makeRequest (NewClient "https://x.example" "" "" "") "GET"
      "/rest/api/2/myself" (fun _ => (200, "ok")) =
      .error "authentication credentials not provided" :=
  (C8_auth_selection (NewClient "https://x.example" "" "" "") "GET"
      "/rest/api/2/myself").2.2 (by decide) (by decide) _ _

/-- C9: the stored `BaseURL` never ends in a slash (whatever the user
configured), and each request URL is the plain concatenation of `BaseURL`
and the endpoint, so no doubled slash can arise at the join point. -/
theorem C9_base_url_join (b email user tok endpoint : String) :
    (NewClient b email user tok).BaseURL.toList.getLast? ≠ some '/' ∧
    requestURL (NewClient b email user tok) endpoint
      = (NewClient b email user tok).BaseURL ++ endpoint ∧
    (requestURL (NewClient b email user tok) endpoint).toList
      = (NewClient b email user tok).BaseURL.toList ++ endpoint.toList := by
  refine ⟨?_, rfl, ?_⟩
  · show (String.mk ((b.toList.reverse.dropWhile
      (fun c => c == '/')).reverse)).toList.getLast? ≠ some '/'
    rw [show ∀ l : List Char, (String.mk l).toList = l from fun _ => rfl]
    rw [List.getLast?_reverse]
    intro h
    exact head?_dropWhileSlash _ _ h rfl
  · show ((NewClient b email user tok).BaseURL ++ endpoint).data = _
    rw [String.data_append]
    rfl

/-- C10: `maskToken` preserves the input length; inputs of length at most
8 are fully starred; longer inputs keep exactly their first 4 and last 4
characters, every middle character replaced by a star. -/
theorem C10_maskToken_shape (token : String) :
    (maskToken token).length = token.length ∧
    (token.length ≤ 8 → ∀ c ∈ (maskToken token).toList, c = '*') ∧
    (8 < token.length →
      (maskToken token).toList.take 4 = token.toList.take 4 ∧
      (maskToken token).toList.drop (token.length - 4)
        = token.toList.drop (token.length - 4) ∧
      ∀ i, 4 ≤ i → i < token.length - 4 →
        (maskToken token).toList[i]? = some '*') := by
  have hlen : token.length = token.toList.length := rfl
  by_cases h8 : token.length ≤ 8
  · refine ⟨?_, fun _ c hc => ?_, fun hgt => absurd h8 (by omega)⟩
    · rw [maskToken, if_pos h8, String.length_mk, List.length_replicate]
    · rw [maskToken, if_pos h8] at hc
      exact List.eq_of_mem_replicate hc
  · have hgt : 8 < token.length := by omega
    have htake : (token.toList.take 4).length = 4 := by
      rw [List.length_take]; omega
    have hmid : (token.toList.take 4
        ++ List.replicate (token.length - 8) '*').length
        = token.length - 4 := by
      rw [List.length_append, htake, List.length_replicate]; omega
    refine ⟨?_, fun hle => absurd hle (by omega), fun _ => ⟨?_, ?_, ?_⟩⟩
    · rw [maskToken, if_neg h8, String.length_mk]
      simp only [List.length_append, List.length_take, List.length_replicate,
        List.length_drop]
      omega
    · rw [maskToken, if_neg h8]
      show ((token.toList.take 4 ++ List.replicate (token.length - 8) '*')
        ++ token.toList.drop (token.length - 4)).take 4 = _
      rw [List.take_append_of_le_length
            (by rw [List.length_append, htake, List.length_replicate]; omega),
          List.take_append_of_le_length (by rw [htake]),
          List.take_take]
      simp
    · rw [maskToken, if_neg h8]
      show ((token.toList.take 4 ++ List.replicate (token.length - 8) '*')
        ++ token.toList.drop (token.length - 4)).drop (token.length - 4) = _
      rw [← hmid, List.drop_left]
    · intro i hi4 hiu
      rw [maskToken, if_neg h8]
      show ((token.toList.take 4 ++ List.replicate (token.length - 8) '*')
        ++ token.toList.drop (token.length - 4))[i]? = some '*'
      rw [List.getElem?_append, if_pos (by omega),
          List.getElem?_append, if_neg (by omega)]
      rw [htake]
      simp only [List.getElem?_replicate]
      rw [if_pos (by omega)]

/-- C10 witness: a 12-character token keeps its first and last 4
characters and stars the middle; an 8-character token is fully starred. -/
theorem C10_maskToken_shape_witness :
    (maskToken "abcdefghijkl").length = ("abcdefghijkl" : String).length ∧
    (∀ c ∈ (maskToken "abcdefgh").toList, c = '*') ∧
    (maskToken "abcdefghijkl").toList.take 4
      = ("abcdefghijkl" : String).toList.take 4 ∧
    (maskToken "abcdefghijkl").toList[5]? = some '*' :=
  ⟨(C10_maskToken_shape "abcdefghijkl").1,
   (C10_maskToken_shape "abcdefgh").2.1 (by decide),
   ((C10_maskToken_shape "abcdefghijkl").2.2 (by decide)).1,
   ((C10_maskToken_shape "abcdefghijkl").2.2 (by decide)).2.2 5
     (by decide) (by decide)⟩

/-- C4 counterexample: the resolver is a single pass, not exact-first.
With legal labels `Done and Dusted, Done` and target `done`, an exact
case-insensitive match (`Done`) exists, yet resolution selects
`Done and Dusted` because the earlier candidate already matches by
substring. And the substring test is one-directional: for the single
label `Progress` and target `In Progress Now` the target contains the
candidate, which the claim says matches, but resolution fails. -/
theorem C4_counterexample :
    shiftResolve [⟨"5", "", "Done and Dusted"⟩, ⟨"6", "", "Done"⟩] "done"
      = .ok ⟨"5", "", "Done and Dusted"⟩ ∧
    lowerStr "Done" = lowerStr "done" ∧
    ("Done and Dusted" : String) ≠ "Done" ∧
    shiftResolve [⟨"7", "", "Progress"⟩] "In Progress Now"
      = .error ["Progress"] ∧
    strContains (lowerStr "In Progress Now") (lowerStr "Progress")
      = true :=
  ⟨rfl, rfl, by decide, rfl, rfl⟩

/-- C4 (amended): transition resolution is a single pass over the
provider's transitions in their returned order; a candidate matches when
its target-status label equals the target case-insensitively or contains
it as a case-insensitive substring, and the first matching candidate wins
even when a later candidate would match exactly. When no candidate
matches, the operation fails and the full list of legal labels is
surfaced. On the worked example `To Do, In Progress, Done`: target
`done` selects `Done`, `prog` selects `In Progress`, and `Cancelled`
fails carrying all three labels. -/
theorem C4_single_pass_resolution :
    (∀ ts target, (∀ t ∈ ts, transitionMatches target t = false) →
        shiftResolve ts target = .error (ts.map (fun t => t.toName))) ∧
    (∀ pre t post target,
        (∀ u ∈ pre, transitionMatches target u = false) →
        transitionMatches target t = true →
        shiftResolve (pre ++ t :: post) target = .ok t) ∧
    shiftResolve demoTransitions "done" = .ok ⟨"31", "", "Done"⟩ ∧
    shiftResolve demoTransitions "prog" = .ok ⟨"21", "", "In Progress"⟩ ∧
    shiftResolve demoTransitions "Cancelled"
      = .error ["To Do", "In Progress", "Done"] := by
  refine ⟨fun ts target h => ?_, fun pre t post target hpre ht => ?_,
    rfl, rfl, rfl⟩
  · have hnone : findTransition ts target = none := by
      rw [findTransition]
      exact List.find?_eq_none.mpr (fun x hx => by simp [h x hx])
    rw [shiftResolve, hnone]
  · have hfind : findTransition (pre ++ t :: post) target = some t := by
      rw [findTransition]
      induction pre with
      | nil => simp [List.find?_cons, ht]
      | cons u pre ih =>
        have hu : transitionMatches target u = false :=
          hpre u (List.mem_cons_self u pre)
        simp only [List.cons_append, List.find?_cons, hu]
        exact ih (fun v hv => hpre v (List.mem_cons_of_mem u hv))
    rw [shiftResolve, hfind]

/-- C4 witness: the no-match branch surfaces all three labels, and a
first-position substring match wins. -/
theorem C4_single_pass_resolution_witness :
    shiftResolve demoTransitions "Cancelled"
      = .error ["To Do", "In Progress", "Done"] ∧
    shiftResolve ([⟨"11", "", "To Do"⟩] ++ ⟨"21", "", "In Progress"⟩ ::
        [⟨"31", "", "Done"⟩]) "prog" = .ok ⟨"21", "", "In Progress"⟩ :=
  ⟨C4_single_pass_resolution.1 demoTransitions "Cancelled" (by decide),
   C4_single_pass_resolution.2.1 [⟨"11", "", "To Do"⟩]
     ⟨"21", "", "In Progress"⟩ [⟨"31", "", "Done"⟩] "prog"
     (by decide) (by decide)⟩

/-! ## Pagination lemmas -/

/-- Against an honest provider, a search page is the corresponding slice
of the server's records (normalized), with the authoritative total. -/
theorem searchIssuesWithPagination_honest (L : List Issue) (s m : Nat) :
    searchIssuesWithPagination (honestProvider L) s m
      = { issues := ((L.drop s).take m).map normalizeIssue, startAt := s,
          total := L.length, maxResults := m } := by
  rw [searchIssuesWithPagination]
  simp only [honestProvider]
  by_cases h0 : L.length = 0
  · have hnil : L = [] := List.length_eq_zero.mp h0
    subst hnil
    simp
  · rw [if_neg (by simp [h0])]

/-- The `GetEpicChildren` loop against an honest provider returns the
accumulator followed by every record from offset `s` on, given enough
fuel. -/
theorem getEpicChildrenLoop_honest (L : List Issue) :
    ∀ (k s : Nat) (acc : List Issue), L.length ≤ s + 50 * k →
      getEpicChildrenLoop (honestProvider L) (k + 1) s acc
        = some (acc ++ L.drop s) := by
  intro k
  induction k with
  | zero =>
    intro s acc h
    have hdrop : L.drop s = [] := List.drop_eq_nil_of_le (by omega)
    rw [getEpicChildrenLoop]
    simp only [honestProvider, hdrop, List.take_nil, List.length_nil,
      List.append_nil, Nat.add_zero]
    rw [if_pos (by omega)]
  | succ k ih =>
    intro s acc h
    rw [getEpicChildrenLoop]
    simp only [honestProvider]
    by_cases hstop : s + ((L.drop s).take 50).length ≥ L.length
    · rw [if_pos hstop]
      have hall : (L.drop s).take 50 = L.drop s := by
        apply List.take_of_length_le
        rw [List.length_take, List.length_drop] at hstop
        rw [List.length_drop]
        omega
      rw [hall]
    · rw [if_neg hstop]
      rw [ih (s + 50) (acc ++ (L.drop s).take 50) (by omega)]
      rw [List.append_assoc]
      have hsplit : (L.drop s).take 50 ++ L.drop (s + 50) = L.drop s := by
        rw [show L.drop (s + 50) = (L.drop s).drop 50 from
              (List.drop_drop 50 s L).symm]
        exact List.take_append_drop 50 (L.drop s)
      rw [hsplit]

/-- The `getEpicChildrenViaSearch` loop against an honest provider
returns the accumulator followed by every record from offset `s` on,
normalized, given enough fuel. -/
theorem viaSearchLoop_honest (L : List Issue) :
    ∀ (k s : Nat) (acc : List Issue), L.length ≤ s + 100 * k →
      getEpicChildrenViaSearchLoop (honestProvider L) (k + 1) s acc
        = some (acc ++ (L.drop s).map normalizeIssue) := by
  intro k
  induction k with
  | zero =>
    intro s acc h
    have hdrop : L.drop s = [] := List.drop_eq_nil_of_le (by omega)
    rw [getEpicChildrenViaSearchLoop, searchIssuesWithPagination_honest]
    simp only [hdrop, List.take_nil, List.map_nil, List.length_nil,
      List.append_nil, Nat.add_zero]
    rw [if_pos (by omega)]
  | succ k ih =>
    intro s acc h
    rw [getEpicChildrenViaSearchLoop, searchIssuesWithPagination_honest]
    simp only [List.length_map]
    by_cases hstop : s + ((L.drop s).take 100).length ≥ L.length
    · rw [if_pos hstop]
      have hall : (L.drop s).take 100 = L.drop s := by
        apply List.take_of_length_le
        rw [List.length_take, List.length_drop] at hstop
        rw [List.length_drop]
        omega
      rw [hall]
    · rw [if_neg hstop]
      rw [ih (s + 100) (acc ++ ((L.drop s).take 100).map normalizeIssue)
            (by omega)]
      rw [List.append_assoc, ← List.map_append]
      have hsplit : (L.drop s).take 100 ++ L.drop (s + 100) = L.drop s := by
        rw [show L.drop (s + 100) = (L.drop s).drop 100 from
              (List.drop_drop 100 s L).symm]
        exact List.take_append_drop 100 (L.drop s)
      rw [hsplit]

/-- The `GetEpicChildren` loop never stops against the inflating
provider: every page is empty and the reported total always exceeds the
current offset. -/
theorem inflating_loop_none :
    ∀ (fuel s : Nat) (acc : List Issue),
      getEpicChildrenLoop inflatingProvider fuel s acc = none := by
  intro fuel
  induction fuel with
  | zero => intro s acc; rfl
  | succ k ih =>
    intro s acc
    rw [getEpicChildrenLoop]
    simp only [inflatingProvider]
    rw [if_neg (by simp)]
    exact ih _ _

/-- With every reported total bounded by `T`, the `GetEpicChildren` loop
stops within the fuel that lets `startAt` pass `T`. -/
theorem bounded_total_loop_some (provider : Provider) (T : Nat)
    (hT : ∀ s m, (provider s m).total ≤ T) :
    ∀ (k s : Nat) (acc : List Issue), T ≤ s + 50 * k →
      (getEpicChildrenLoop provider (k + 1) s acc).isSome = true := by
  intro k
  induction k with
  | zero =>
    intro s acc h
    rw [getEpicChildrenLoop]
    have := hT s 50
    rw [if_pos (by omega)]
    rfl
  | succ k ih =>
    intro s acc h
    rw [getEpicChildrenLoop]
    by_cases hc : s + (provider s 50).issues.length ≥ (provider s 50).total
    · rw [if_pos hc]; rfl
    · rw [if_neg hc]
      exact ih _ _ (by omega)

/-! ## Pagination claim theorems -/

/-- C1 counterexample: a provider holding 120 records whose total-count
field is always 0 makes the search loop terminate after its very first
page (the zero total is replaced by the page length, which immediately
satisfies the stop condition), so only 100 records — one page — are
returned, not all 120. -/
theorem C1_counterexample :
    (List.replicate 120 blankIssue).length = 120 ∧
    (getEpicChildrenViaSearch
      (zeroTotalProvider (List.replicate 120 blankIssue)) 1).isSome
      = true ∧
    (getEpicChildrenViaSearch
      (zeroTotalProvider (List.replicate 120 blankIssue)) 9).map
        List.length = some 100 :=
  ⟨by simp, rfl, rfl⟩

/-- C1 (amended): against a provider that always reports a total of 0,
the search pagination loop terminates after the first page fetch and
returns exactly that first page (normalized); records the provider holds
beyond the first page are never requested or returned. -/
theorem C1_zero_total_first_page_only (provider : Provider)
    (h : (provider 0 100).total = 0) :
    getEpicChildrenViaSearch provider 1
      = some ((provider 0 100).issues.map normalizeIssue) := by
  have hunfold : searchIssuesWithPagination provider 0 100
      = { issues := (provider 0 100).issues.map normalizeIssue,
          startAt := (provider 0 100).startAt,
          total := if (provider 0 100).total = 0
                      ∧ (provider 0 100).issues.length > 0
                   then (provider 0 100).issues.length
                   else (provider 0 100).total,
          maxResults := (provider 0 100).maxResults } := rfl
  by_cases hlen : (provider 0 100).issues.length > 0
  · have htot : (if (provider 0 100).total = 0
          ∧ (provider 0 100).issues.length > 0
        then (provider 0 100).issues.length
        else (provider 0 100).total) = (provider 0 100).issues.length :=
      if_pos ⟨h, hlen⟩
    rw [getEpicChildrenViaSearch, getEpicChildrenViaSearchLoop, hunfold]
    simp only [htot, List.length_map, List.nil_append, Nat.zero_add]
    rw [if_pos (Nat.le_refl _)]
  · have hz : (provider 0 100).issues.length = 0 := by omega
    have htot : (if (provider 0 100).total = 0
          ∧ (provider 0 100).issues.length > 0
        then (provider 0 100).issues.length
        else (provider 0 100).total) = (provider 0 100).total :=
      if_neg (by simp [hz])
    rw [getEpicChildrenViaSearch, getEpicChildrenViaSearchLoop, hunfold]
    simp [h, hz]

/-- C1 witness: the 120-record always-zero-total provider instantiates
the amended claim. -/
theorem C1_zero_total_first_page_only_witness :
    getEpicChildrenViaSearch
      (zeroTotalProvider (List.replicate 120 blankIssue)) 1
      = some ((zeroTotalProvider (List.replicate 120 blankIssue) 0
          100).issues.map normalizeIssue) :=
  C1_zero_total_first_page_only
    (zeroTotalProvider (List.replicate 120 blankIssue)) rfl

/-- C2 counterexample: the loop has no empty-page stop. A provider that
always returns an empty page while reporting a total one larger than the
requested offset keeps the `GetEpicChildren` loop running forever, so the
loop does not terminate for every response sequence. And even with a
fixed reported total of 100, the first empty page does not stop the loop:
one iteration is not enough (the claim's zero-records stop would finish
there), it takes three. -/
theorem C2_counterexample :
    (¬ ∃ fuel, (getEpicChildren inflatingProvider fuel).isSome = true) ∧
    getEpicChildren (fun s m =>
      { issues := [], startAt := s, total := 100, maxResults := m }) 1
      = none ∧
    getEpicChildren (fun s m =>
      { issues := [], startAt := s, total := 100, maxResults := m }) 3
      = some [] := by
  refine ⟨?_, rfl, rfl⟩
  rintro ⟨fuel, h⟩
  rw [getEpicChildren, inflating_loop_none] at h
  simp at h

/-- C2 (amended): the `GetEpicChildren` loop stops a round exactly when
`startAt + len(records) >= total` for that round's reported total; it has
no empty-page stop, but whenever every reported total is bounded by a
fixed `T` the loop terminates, because `startAt` grows by the page size
each round until it passes `T`. -/
theorem C2_terminates_for_bounded_totals (provider : Provider) (T : Nat)
    (hT : ∀ s m, (provider s m).total ≤ T) :
    ∃ fuel, (getEpicChildren provider fuel).isSome = true := by
  refine ⟨T / 50 + 2, ?_⟩
  rw [getEpicChildren]
  apply bounded_total_loop_some provider T hT (T / 50 + 1) 0 []
  have h1 := Nat.div_add_mod T 50
  have h2 : T % 50 < 50 := Nat.mod_lt _ (by omega)
  omega

/-- C2 witness: an honest empty provider reports totals bounded by 0 and
the loop indeed terminates. -/
theorem C2_terminates_for_bounded_totals_witness :
    ∃ fuel, (getEpicChildren (honestProvider []) fuel).isSome = true :=
  C2_terminates_for_bounded_totals (honestProvider []) 0
    (fun _ _ => by simp [honestProvider])

/-- C3 counterexample: for the same single-record server, the direct
agile endpoint leaves the record's normalized description empty while
the search fallback fills it from the raw description, so a caller can
observe which strategy executed. -/
theorem C3_counterexample :
    (getEpicChildren (honestProvider [blankIssue]) 1).map
      (List.map Issue.descriptionText) = some [""] ∧
    (getEpicChildrenViaSearch (honestProvider [blankIssue]) 1).map
      (List.map Issue.descriptionText) = some ["body"] ∧
    ("" : String) ≠ "body" :=
  ⟨rfl, rfl, by decide⟩

/-- C3 (amended): against an honest provider with a fixed record list,
both strategies terminate and return the same records in the same order
— but only the search fallback runs each record through the Description
Normalizer; the direct agile endpoint returns them raw (normalized text
left empty). The record keys agree, so the strategies are
indistinguishable except through the normalized description. -/
theorem C3_strategies_agree_up_to_normalization (L : List Issue)
    (fuel : Nat) (h : L.length ≤ 50 * fuel) :
    getEpicChildren (honestProvider L) (fuel + 1) = some L ∧
    getEpicChildrenViaSearch (honestProvider L) (fuel + 1)
      = some (L.map normalizeIssue) ∧
    (L.map normalizeIssue).map Issue.key = L.map Issue.key := by
  refine ⟨?_, ?_, ?_⟩
  · have hx := getEpicChildrenLoop_honest L fuel 0 [] (by omega)
    rw [getEpicChildren, hx]
    simp
  · have hx := viaSearchLoop_honest L fuel 0 [] (by omega)
    rw [getEpicChildrenViaSearch, hx]
    simp
  · simp [List.map_map, Function.comp, normalizeIssue]

/-- C3 witness: the single-record server instantiates the amended
claim. -/
theorem C3_strategies_agree_up_to_normalization_witness :
    getEpicChildren (honestProvider [blankIssue]) 2 = some [blankIssue] ∧
    getEpicChildrenViaSearch (honestProvider [blankIssue]) 2
      = some ([blankIssue].map normalizeIssue) ∧
    ([blankIssue].map normalizeIssue).map Issue.key
      = [blankIssue].map Issue.key :=
  C3_strategies_agree_up_to_normalization [blankIssue] 1 (by decide)

/-! ## Ordered-containment lemmas -/

theorem coi_single (s : String) : ContainsInOrder s [s] := by
  have h := ContainsInOrder.cons "" s "" [] (ContainsInOrder.nil "")
  simpa [String.empty_append, String.append_empty] using h

theorem coi_prepend (p : String) {s : String} {ts : List String}
    (h : ContainsInOrder s ts) : ContainsInOrder (p ++ s) ts := by
  induction h with
  | nil s => exact ContainsInOrder.nil _
  | cons pre t rest ts h ih =>
    have hc := ContainsInOrder.cons (p ++ pre) t rest ts h
    simpa [String.append_assoc] using hc

theorem coi_append_right (p : String) {s : String} {ts : List String}
    (h : ContainsInOrder s ts) : ContainsInOrder (s ++ p) ts := by
  induction h with
  | nil s => exact ContainsInOrder.nil _
  | cons pre t rest ts h ih =>
    have hc := ContainsInOrder.cons pre t (rest ++ p) ts ih
    simpa [String.append_assoc] using hc

theorem coi_append {s1 s2 : String} {ts1 ts2 : List String}
    (h1 : ContainsInOrder s1 ts1) (h2 : ContainsInOrder s2 ts2) :
    ContainsInOrder (s1 ++ s2) (ts1 ++ ts2) := by
  induction h1 with
  | nil s => exact coi_prepend s h2
  | cons pre t rest ts h ih =>
    have hc := ContainsInOrder.cons pre t (rest ++ s2) (ts ++ ts2) ih
    simpa [String.append_assoc] using hc

/-- Joint strong induction: the extractor's output contains every visited
`text` value in visitation order, both for a node's field map and for a
`content` array. -/
theorem adf_contains_aux (n : Nat) :
    (∀ fields : List (String × JSON), sizeOf fields ≤ n →
      ContainsInOrder (extractTextFromADF fields) (adfTexts fields)) ∧
    (∀ l : List JSON, sizeOf l ≤ n →
      ContainsInOrder (extractChildren l) (adfTextsChildren l)) := by
  induction n using Nat.strong_induction_on with
  | _ n ih =>
    constructor
    · intro fields hn
      rw [extractTextFromADF, adfTexts]
      apply coi_append
      · cases htext : lookupField fields "text" with
        | none => simp only [htext]; exact ContainsInOrder.nil _
        | some j =>
          cases j with
          | str s => simp only [htext]; exact coi_single s
          | num => simp only [htext]; exact ContainsInOrder.nil _
          | bool b => simp only [htext]; exact ContainsInOrder.nil _
          | null => simp only [htext]; exact ContainsInOrder.nil _
          | arr xs => simp only [htext]; exact ContainsInOrder.nil _
          | obj f => simp only [htext]; exact ContainsInOrder.nil _
      · cases hcontent : lookupField fields "content" with
        | none => simp only [hcontent]; exact ContainsInOrder.nil _
        | some j =>
          cases j with
          | str s => simp only [hcontent]; exact ContainsInOrder.nil _
          | num => simp only [hcontent]; exact ContainsInOrder.nil _
          | bool b => simp only [hcontent]; exact ContainsInOrder.nil _
          | null => simp only [hcontent]; exact ContainsInOrder.nil _
          | obj f => simp only [hcontent]; exact ContainsInOrder.nil _
          | arr elems =>
            simp only [hcontent]
            have hsz := sizeOf_lookupField hcontent
            simp only [JSON.arr.sizeOf_spec] at hsz
            exact (ih (sizeOf elems) (by omega)).2 elems (Nat.le_refl _)
    · intro l hn
      cases l with
      | nil =>
        rw [extractChildren, adfTextsChildren]
        exact ContainsInOrder.nil _
      | cons child rest =>
        have hszl : 1 + sizeOf child + sizeOf rest ≤ n := by
          simpa using hn
        have hrest : ContainsInOrder (extractChildren rest)
            (adfTextsChildren rest) := by
          have hszr : sizeOf rest < n := by
            have hc1 : (1 : Nat) ≤ sizeOf child := by
              cases child <;> simp
            omega
          exact (ih (sizeOf rest) hszr).2 rest (Nat.le_refl _)
        cases child with
        | str s =>
          simp only [extractChildren, adfTextsChildren]
          exact coi_append (ContainsInOrder.nil "") hrest
        | num =>
          simp only [extractChildren, adfTextsChildren]
          exact coi_append (ContainsInOrder.nil "") hrest
        | bool b =>
          simp only [extractChildren, adfTextsChildren]
          exact coi_append (ContainsInOrder.nil "") hrest
        | null =>
          simp only [extractChildren, adfTextsChildren]
          exact coi_append (ContainsInOrder.nil "") hrest
        | arr xs =>
          simp only [extractChildren, adfTextsChildren]
          exact coi_append (ContainsInOrder.nil "") hrest
        | obj f =>
          have hszf : sizeOf f < n := by
            have hs : sizeOf (JSON.obj f) = 1 + sizeOf f :=
              JSON.obj.sizeOf_spec f
            omega
          have hf := (ih (sizeOf f) hszf).1 f (Nat.le_refl _)
          simp only [extractChildren, adfTextsChildren]
          apply coi_append _ hrest
          by_cases hct : extractTextFromADF f = ""
          · rw [hct] at hf
            simpa [hct] using hf
          · simp only [if_neg hct]
            exact coi_append_right " " hf

/-- Joint strong induction: a (sub)tree whose visited `text` list is empty
extracts to the empty string. -/
theorem adf_empty_aux (n : Nat) :
    (∀ fields : List (String × JSON), sizeOf fields ≤ n →
      adfTexts fields = [] → extractTextFromADF fields = "") ∧
    (∀ l : List JSON, sizeOf l ≤ n →
      adfTextsChildren l = [] → extractChildren l = "") := by
  induction n using Nat.strong_induction_on with
  | _ n ih =>
    constructor
    · intro fields hn hempty
      rw [adfTexts] at hempty
      obtain ⟨h1, h2⟩ := List.append_eq_nil.mp hempty
      rw [extractTextFromADF]
      have ha : (match lookupField fields "text" with
          | some (JSON.str s) => s
          | _ => "") = "" := by
        cases htext : lookupField fields "text" with
        | none => rfl
        | some j =>
          cases j with
          | str s => rw [htext] at h1; simp at h1
          | num => rfl
          | bool b => rfl
          | null => rfl
          | arr xs => rfl
          | obj f => rfl
      rw [ha, String.empty_append]
      cases hcontent : lookupField fields "content" with
      | none => rfl
      | some j =>
        cases j with
        | str s => rfl
        | num => rfl
        | bool b => rfl
        | null => rfl
        | obj f => rfl
        | arr elems =>
          rw [hcontent] at h2
          have hsz := sizeOf_lookupField hcontent
          simp only [JSON.arr.sizeOf_spec] at hsz
          exact (ih (sizeOf elems) (by omega)).2 elems (Nat.le_refl _) h2
    · intro l hn hempty
      cases l with
      | nil => rw [extractChildren]
      | cons child rest =>
        have hszl : 1 + sizeOf child + sizeOf rest ≤ n := by
          simpa using hn
        have hc1 : (1 : Nat) ≤ sizeOf child := by
          cases child <;> simp
        have hszr : sizeOf rest < n := by omega
        cases child with
        | str s =>
          simp only [adfTextsChildren, List.nil_append] at hempty
          have hrest : extractChildren rest = "" :=
            (ih (sizeOf rest) hszr).2 rest (Nat.le_refl _) hempty
          simp [extractChildren, hrest]
        | num =>
          simp only [adfTextsChildren, List.nil_append] at hempty
          have hrest : extractChildren rest = "" :=
            (ih (sizeOf rest) hszr).2 rest (Nat.le_refl _) hempty
          simp [extractChildren, hrest]
        | bool b =>
          simp only [adfTextsChildren, List.nil_append] at hempty
          have hrest : extractChildren rest = "" :=
            (ih (sizeOf rest) hszr).2 rest (Nat.le_refl _) hempty
          simp [extractChildren, hrest]
        | null =>
          simp only [adfTextsChildren, List.nil_append] at hempty
          have hrest : extractChildren rest = "" :=
            (ih (sizeOf rest) hszr).2 rest (Nat.le_refl _) hempty
          simp [extractChildren, hrest]
        | arr xs =>
          simp only [adfTextsChildren, List.nil_append] at hempty
          have hrest : extractChildren rest = "" :=
            (ih (sizeOf rest) hszr).2 rest (Nat.le_refl _) hempty
          simp [extractChildren, hrest]
        | obj f =>
          simp only [adfTextsChildren] at hempty
          obtain ⟨h1, h2⟩ := List.append_eq_nil.mp hempty
          have hrest : extractChildren rest = "" :=
            (ih (sizeOf rest) hszr).2 rest (Nat.le_refl _) h2
          have hszf : sizeOf f < n := by
            have hs : sizeOf (JSON.obj f) = 1 + sizeOf f :=
              JSON.obj.sizeOf_spec f
            omega
          have hf := (ih (sizeOf f) hszf).1 f (Nat.le_refl _) h1
          simp [extractChildren, hrest, hf]

/-- C7: the Description Normalizer's output contains every `text` value of
a rich-document tree in document (depth-first, content-list) order; a tree
with no `text` fields anywhere normalizes to the empty string; and every
empty, invalid, or neither-shape description input normalizes to the empty
string — the normalizer is total and never fails the ticket fetch. -/
theorem C7_normalizer_order_and_recovery :
    (∀ fields : List (String × JSON),
      ContainsInOrder (extractTextFromADF fields) (adfTexts fields)) ∧
    (∀ fields : List (String × JSON),
      adfTexts fields = [] → extractTextFromADF fields = "") ∧
    (∀ r : RawMessage, DescMalformed r → parseDescription r = "") := by
  refine ⟨fun fields => (adf_contains_aux (sizeOf fields)).1 fields
      (Nat.le_refl _),
    fun fields h => (adf_empty_aux (sizeOf fields)).1 fields
      (Nat.le_refl _) h,
    fun r hr => ?_⟩
  cases r with
  | empty => rfl
  | invalid => rfl
  | val j =>
    cases j with
    | str s => exact hr.elim
    | num => rfl
    | bool b => rfl
    | null => rfl
    | arr xs => rfl
    | obj f => exact hr.elim

/-- C7 witness: a two-paragraph document normalizes with its text values
in order; a tree with no `text` field normalizes to the empty string; an
array-shaped description normalizes to the empty string. -/
theorem C7_normalizer_order_and_recovery_witness :
    ContainsInOrder
      (extractTextFromADF
        [("type", JSON.str "doc"),
         ("content", JSON.arr
           [JSON.obj [("text", JSON.str "hello")],
            JSON.obj [("text", JSON.str "world")]])])
      (adfTexts
        [("type", JSON.str "doc"),
         ("content", JSON.arr
           [JSON.obj [("text", JSON.str "hello")],
            JSON.obj [("text", JSON.str "world")]])]) ∧
    extractTextFromADF
      [("type", JSON.str "doc"),
       ("content", JSON.arr [JSON.obj [("type", JSON.str "rule")]])]
      = "" ∧
    parseDescription (.val (.arr [])) = "" :=
  ⟨C7_normalizer_order_and_recovery.1 _,
   C7_normalizer_order_and_recovery.2.1
     [("type", JSON.str "doc"),
      ("content", JSON.arr [JSON.obj [("type", JSON.str "rule")]])]
     (by simp [adfTexts, adfTextsChildren, lookupField]),
   C7_normalizer_order_and_recovery.2.2 _ trivial⟩

end JiraJet
